import Mathlib

/-!
Verification of the retrieval-and-grounding pipeline of the recipe-adaptation
repository (`src/retrieval`, `src/evaluation`, `src/generation`, `src/utils`).

Python strings are embedded as `List Char`; Python sets of strings as
`Finset (List Char)` (or as lists when only membership is used); Python floats
as `ℚ` (all score arithmetic in the source is exact rational arithmetic on
set cardinalities); Python dicts keyed by strings as association lists with
insertion-order semantics.  External collaborators (the spaCy lemmatizer and
the `ingredient_parser` library) are abstract function parameters.
-/

/-- A Python string, embedded as its list of characters. -/
abbrev Str : Type := List Char

/-- Coerce a Lean string literal to the `Str` embedding. -/
def str (s : String) : Str := s.toList

/-- ASCII lowercasing of one character: model of Python's `str.lower` on the
basic latin range (the repository's data and keyword tables are ASCII). -/
def lowerChar (c : Char) : Char :=
  if 65 ≤ c.toNat ∧ c.toNat ≤ 90 then
    Char.ofNat (c.toNat + 32)
  else c

/-- Model of Python's `str.lower()`. -/
def lowerStr (s : Str) : Str := s.map lowerChar

/-- Model of Python's `str.strip()`: drop whitespace from both ends. -/
def trimStr (s : Str) : Str :=
  (s.dropWhile (fun c => c.isWhitespace)).rdropWhile (fun c => c.isWhitespace)

/-- Model of Python's `str.split()` (no argument): split on whitespace runs,
discarding empty components. -/
def pyWords (s : Str) : List Str :=
  (s.splitOnP (fun c => c.isWhitespace)).filter (fun w => !w.isEmpty)

/-! ### Embedding of `src/retrieval/jaccard.py` -/

/-- Embeds `jaccard_similarity` (src/retrieval/jaccard.py): `|A∩B| / |A∪B|`,
with the source's two guards (`if not set1 and not set2: return 0.0` and
`... if union else 0.0`).  Python floats are modelled as exact rationals. -/
def jaccard_similarity {α : Type _} [DecidableEq α] (set1 set2 : Finset α) : ℚ :=
  if set1 = ∅ ∧ set2 = ∅ then 0
  else if set1 ∪ set2 = ∅ then 0
  else ((set1 ∩ set2).card : ℚ) / ((set1 ∪ set2).card : ℚ)

/-- Embeds `name_jaccard`: Jaccard over the whitespace-token sets of the
lowercased names. -/
def name_jaccard (name1 name2 : Str) : ℚ :=
  jaccard_similarity (pyWords (lowerStr name1)).toFinset (pyWords (lowerStr name2)).toFinset

/-! ### Embedding of the recipe data model and `src/utils/recipe_utils.py` -/

/-- A recipe record.  `id` is the `"id"` key used by the ID-indexed (toy/CC)
corpus; `name` models `.get("name")` (absent key = `none`); `graph` models the
`"graph"` key, holding the `name` of each node of `graph["ingredients"]`;
`ingredients` models the flat `"ingredients"` list of the RecipePairs format. -/
structure Recipe where
  id : Str := []
  name : Option Str := none
  graph : Option (List Str) := none
  ingredients : Option (List Str) := none
deriving DecidableEq, Repr

/-- Embeds `get_ingredients` (src/utils/recipe_utils.py): graph format takes
the lowercased node names, flat format the lowercased ingredient strings,
otherwise the empty set. -/
def get_ingredients (recipe : Recipe) : Finset Str :=
  match recipe.graph with
  | some g => (g.map lowerStr).toFinset
  | none =>
    match recipe.ingredients with
    | some l => (l.map lowerStr).toFinset
    | none => (∅ : Finset Str)

/-- Embeds `combined_similarity` (src/retrieval/jaccard.py):
`alpha * ingredient_jaccard + (1 - alpha) * name_jaccard`, names read with
`recipe.get("name", "")`. -/
def combined_similarity (recipe1 recipe2 : Recipe) (ingredients1 ingredients2 : Finset Str)
    (alpha : ℚ) : ℚ :=
  alpha * jaccard_similarity ingredients1 ingredients2 +
    (1 - alpha) * name_jaccard (recipe1.name.getD []) (recipe2.name.getD [])

/-! ### Embedding of `src/retrieval/grounded_retrieval.py` and
`src/retrieval/cc_retrieval.py` -/

/-- The relation of Python's stable descending sort by score
(`scores.sort(key=lambda x: x[1], reverse=True)`): `a` may come before `b`
iff `b`'s score is at most `a`'s. -/
def scoreGE {β : Type _} (a b : β × ℚ) : Prop := b.2 ≤ a.2

instance {β : Type _} : DecidableRel (scoreGE (β := β)) :=
  fun a b => inferInstanceAs (Decidable (b.2 ≤ a.2))

/-- Python's `list.sort(key=lambda x: x[1], reverse=True)`: a stable sort,
descending by score; `List.insertionSort` with `scoreGE` is stable in exactly
the same sense (ties keep list order). -/
def sortByScoreDesc {β : Type _} (l : List (β × ℚ)) : List (β × ℚ) :=
  List.insertionSort scoreGE l

/-- Fixed `ALPHA = 0.4` of src/retrieval/grounded_retrieval.py. -/
def ALPHA : ℚ := 2/5

/-- The scored candidate list built by the corpus loop of
`retrieve_similar_recipes`: every corpus member whose `.get("name")` differs
from the query's, paired with its combined similarity to the query. -/
def groundedScored (query_recipe : Recipe) (corpus : List Recipe) : List (Recipe × ℚ) :=
  (corpus.filter (fun recipe => !decide (recipe.name = query_recipe.name))).map
    (fun recipe =>
      (recipe, combined_similarity query_recipe recipe
        (get_ingredients query_recipe) (get_ingredients recipe) ALPHA))

/-- Embeds `retrieve_similar_recipes` (src/retrieval/grounded_retrieval.py,
object mode): score all non-self corpus members, sort by score descending
(stable) and truncate to `top_k`. -/
def retrieve_similar_recipes (query_recipe : Recipe) (corpus : List Recipe)
    (top_k : Nat) : List (Recipe × ℚ) :=
  (sortByScoreDesc (groundedScored query_recipe corpus)).take top_k

/-- The scored candidate list of `retrieve_similar` (ID-indexed mode):
pairs `(recipe["id"], jaccard)` for every recipe whose id differs from the
query id. -/
def ccScored (query_recipe : Recipe) (query_recipe_id : Str) (recipes : List Recipe) :
    List (Str × ℚ) :=
  (recipes.filter (fun r => !decide (r.id = query_recipe_id))).map
    (fun r => (r.id, jaccard_similarity (get_ingredients query_recipe) (get_ingredients r)))

/-- Embeds `retrieve_similar` (src/retrieval/cc_retrieval.py, ID-indexed
mode): look the query up by id — raising `ValueError(f"Recipe {id} not
found")`, modelled as `Except.error`, when no recipe carries the id — then
score, sort descending (stable) and truncate. -/
def retrieve_similar (query_recipe_id : Str) (recipes : List Recipe) (top_k : Nat) :
    Except Str (List (Str × ℚ)) :=
  match recipes.find? (fun r => decide (r.id = query_recipe_id)) with
  | none => .error (str ("Recipe ") ++ query_recipe_id ++ str (" not found"))
  | some query_recipe =>
    .ok ((sortByScoreDesc (ccScored query_recipe query_recipe_id recipes)).take top_k)

/-- Embeds `extract_allowed_ingredients` (src/retrieval/grounded_retrieval.py):
union of `get_ingredients` over the retrieved `(recipe, score)` pairs. -/
def retrievalExtractAllowedIngredients (retrieved_recipes : List (Recipe × ℚ)) :
    Finset Str :=
  retrieved_recipes.foldl (fun allowed p => allowed ∪ get_ingredients p.1) ∅

/-- Embeds `extract_allowed_ingredients` (src/generation/grounded_generation.py):
union over `recipe.get("ingredients", [])` of `ing.lower().strip()`. -/
def generationExtractAllowedIngredients (retrieved_recipes : List Recipe) : Finset Str :=
  retrieved_recipes.foldl
    (fun allowed recipe =>
      allowed ∪ ((recipe.ingredients.getD []).map (fun ing => trimStr (lowerStr ing))).toFinset)
    ∅

/-! ### Embedding of `src/evaluation/grounded_checker.py` -/

/-- The `MEAT_KEYWORDS` table of src/evaluation/grounded_checker.py. -/
def MEAT_KEYWORDS : List Str :=
  [str ("chicken"), str ("beef"), str ("pork"), str ("lamb"), str ("turkey"),
   str ("bacon"), str ("ham"), str ("sausage"), str ("meat"), str ("steak"),
   str ("veal"), str ("duck"), str ("prosciutto"), str ("salami"),
   str ("pepperoni"), str ("chorizo")]

/-- Embeds `normalize_ingredient`: lowercase, strip, and — when `use_lemma` —
lemmatize and rejoin with single spaces.  The spaCy lemmatizer is an external
collaborator; modelled from the spec: "reduce each whitespace-delimited token
to its dictionary base form using an external lemmatization capability (e.g.,
"tomatoes" → "tomato") and rejoin with single spaces" — `lem` is that abstract
per-token base-form map. -/
def normalize_ingredient (lem : Str → Str) (use_lemma : Bool) (ingredient : Str) : Str :=
  let normalized := trimStr (lowerStr ingredient)
  if use_lemma then List.intercalate [' '] ((pyWords normalized).map lem)
  else normalized

/-- Embeds `normalize_ingredient_set`: the set of normalized ingredients. -/
def normalize_ingredient_set (lem : Str → Str) (use_lemma : Bool)
    (ingredients : List Str) : Finset Str :=
  (ingredients.map (normalize_ingredient lem use_lemma)).toFinset

/-- Report of `check_constraint_violations`. -/
structure ConstraintReport where
  violated : Bool
  violations : List Str
  count : Nat
deriving DecidableEq, Repr

/-- Embeds `check_constraint_violations`: collect every meat keyword that
occurs as a substring of the lowercased text. -/
def check_constraint_violations (text : Str) : ConstraintReport :=
  let text_lower := lowerStr text
  let found_meat := MEAT_KEYWORDS.filter (fun keyword => decide (keyword <:+: text_lower))
  { violated := decide (0 < found_meat.length)
    violations := found_meat
    count := found_meat.length }

/-- One insertion into a Python dict modelled as an association list:
an existing key keeps its position and gets the new value, a new key is
appended. -/
def dictInsert {K V : Type _} [DecidableEq K] (m : List (K × V)) (k : K) (v : V) :
    List (K × V) :=
  if k ∈ m.map Prod.fst then m.map (fun p => if p.1 = k then (k, v) else p)
  else m ++ [(k, v)]

/-- A Python dict comprehension: keys in first-insertion order, each key
holding the value of its last occurrence. -/
def dictOfList {K V : Type _} [DecidableEq K] (ps : List (K × V)) : List (K × V) :=
  ps.foldl (fun m p => dictInsert m p.1 p.2) []

/-- Report of `check_grounding_violations`. -/
structure GroundingReport where
  violated : Bool
  novel_ingredients : List Str
  count : Nat
  extracted_count : Nat
deriving DecidableEq, Repr

/-- Embeds `check_grounding_violations`: build the dict
`{normalize(ing): ing for ing in extracted}`, and report as novel the
original string of every dict entry whose normalized key is not in the
normalized allowed set. -/
def check_grounding_violations (lem : Str → Str) (use_lemma : Bool)
    (extracted_ingredients allowed_ingredients : List Str) : GroundingReport :=
  let extracted_norm :=
    dictOfList (extracted_ingredients.map
      (fun ing => (normalize_ingredient lem use_lemma ing, ing)))
  let allowed_norm := normalize_ingredient_set lem use_lemma allowed_ingredients
  let novel := (extracted_norm.filter (fun p => decide (p.1 ∉ allowed_norm))).map Prod.snd
  { violated := decide (0 < novel.length)
    novel_ingredients := novel
    count := novel.length
    extracted_count := extracted_ingredients.length }

/-! ### Embedding of `extract_ingredients_from_text`
(src/evaluation/grounded_checker.py).  The `ingredient_parser` library is the
external collaborator `parse` (the name-part texts it emits for a line; a
parse exception is the empty list).  Python's `re` machinery on the two fixed
patterns is implemented directly: greedy quantifiers resolve to maximal munch
and `$` to end-of-input, which is their behaviour on the section layouts this
checker is applied to. -/

/-- `re.sub(r"\*\*", "", ·)` for a doubled character: drop every
non-overlapping occurrence of `[a, a]`, scanning left to right. -/
def removePairs (a : Char) : Str → Str
  | [] => []
  | [c] => [c]
  | c1 :: c2 :: rest =>
    if c1 = a ∧ c2 = a then removePairs a rest
    else c1 :: removePairs a (c2 :: rest)

/-- Match of the section-header part `[Ii]ngredients?:?\s*\n` at the head of
`l`; on success returns the text following the matched newline. -/
def headerMatch (l : Str) : Option Str :=
  match l with
  | [] => none
  | c :: rest =>
    if (c = 'I' ∨ c = 'i') ∧ (str ("ngredient")).isPrefixOf rest then
      let r1 := rest.drop 9
      let r2 := if r1.head? = some 's' then r1.drop 1 else r1
      let r3 := if r2.head? = some ':' then r2.drop 1 else r2
      let run := r3.takeWhile (fun c => c.isWhitespace)
      if '\n' ∈ run then
        some (r3.drop (run.length - run.reverse.findIdx (fun c => decide (c = '\n'))))
      else none
    else none

/-- Leftmost position at which the section header matches (`re.search`). -/
def findSection : Str → Option Str
  | [] => none
  | c :: rest =>
    match headerMatch (c :: rest) with
    | some body => some body
    | none => findSection rest

/-- Does one alternative of the section-terminator
`\n\s*[Ss]teps?:?|...|\n\s*[Mm]ethod:?` match here?  (The trailing `s?:?`
parts are optional and never constrain the match.) -/
def sectionTerminatorAt : Str → Bool
  | '\n' :: rest =>
    let r := rest.dropWhile (fun c => c.isWhitespace)
    ((decide (r.head? = some 'S') || decide (r.head? = some 's')) &&
       (str ("tep")).isPrefixOf (r.drop 1)) ||
    ((decide (r.head? = some 'I') || decide (r.head? = some 'i')) &&
       (str ("nstruction")).isPrefixOf (r.drop 1)) ||
    ((decide (r.head? = some 'D') || decide (r.head? = some 'd')) &&
       (str ("irection")).isPrefixOf (r.drop 1)) ||
    ((decide (r.head? = some 'M') || decide (r.head? = some 'm')) &&
       (str ("ethod")).isPrefixOf (r.drop 1))
  | _ => false

/-- The lazily-matched group `(.*?)`: everything before the first terminator
position (or the whole text when no terminator occurs). -/
def takeSection : Str → Str
  | [] => []
  | c :: rest => if sectionTerminatorAt (c :: rest) then [] else c :: takeSection rest

/-- The `GARBAGE_WORDS` table of `extract_ingredients_from_text`. -/
def GARBAGE_WORDS : List Str :=
  [str ("ingredients"), str ("ingredient"), str ("steps"), str ("step"),
   str ("instructions"), str ("instruction"), str ("directions"),
   str ("direction"), str ("method"), str ("note"), str ("notes"),
   str ("tip"), str ("tips"), str ("serves"), str ("serving"),
   str ("servings"), str ("yield"), str ("prep"), str ("saucepan"),
   str ("pan"), str ("pot"), str ("bowl"), str ("skillet"), str ("oven"),
   str ("baking sheet"), str ("adapted"), str ("recipe"),
   str ("vegetarian"), str ("vegan"), str ("original")]

/-- The `instruction_starters` table of `parse_line`. -/
def instruction_starters : List Str :=
  [str ("cook"), str ("bake"), str ("mix"), str ("stir"), str ("add"),
   str ("combine"), str ("heat"), str ("place"), str ("pour"), str ("serve"),
   str ("let"), str ("bring"), str ("reduce"), str ("simmer"), str ("boil"),
   str ("fry"), str ("saute"), str ("chop"), str ("dice"), str ("slice"),
   str ("preheat"), str ("set"), str ("cover"), str ("remove"), str ("in"),
   str ("the"), str ("this"), str ("you"), str ("for"), str ("with"),
   str ("here"), str ("note"), str ("tip")]

/-- State of the closure pair (`seen`, `ingredients`) threaded through
`extract_ingredients_from_text`. -/
structure ExtractState where
  seen : List Str
  ingredients : List Str
deriving DecidableEq, Repr

/-- Embeds the inner `add_ingredient`: filter, then deduplicate
case-insensitively keeping the first-seen original casing. -/
def add_ingredient (st : ExtractState) (name : Str) : ExtractState :=
  let name_lower := trimStr (lowerStr name)
  if name_lower.isEmpty then st
  else if name_lower ∈ GARBAGE_WORDS then st
  else if name_lower.length < 2 then st
  else if 4 < (pyWords name_lower).length then st
  else if name_lower ∈ st.seen then st
  else { seen := name_lower :: st.seen, ingredients := st.ingredients ++ [name] }

/-- A character of the bullet class `[\d\.\-\*\•\[\]]`. -/
def isBulletChar (c : Char) : Bool :=
  c.isDigit || decide (c = '.') || decide (c = '-') || decide (c = '*') ||
    decide (c = '•') || decide (c = '[') || decide (c = ']')

/-- Embeds the inner `parse_line`: strip, drop a leading bullet run, skip
headers and instruction lines, then feed every name part the external parser
emits to `add_ingredient`. -/
def parse_line (parse : Str → List Str) (st : ExtractState) (line : Str) : ExtractState :=
  let l1 := trimStr line
  if l1.isEmpty then st
  else
    let l2 := (l1.dropWhile isBulletChar).dropWhile (fun c => c.isWhitespace)
    if l2.isEmpty then st
    else if l2.getLast? = some ':' ∨ l2.head? = some '#' then st
    else
      let first_word := match pyWords l2 with | [] => ([] : Str) | w :: _ => lowerStr w
      if first_word ∈ instruction_starters then st
      else (parse l2).foldl add_ingredient st

/-- Embeds `extract_ingredients_from_text`: strip markdown, locate the
ingredients section when present, and run `parse_line` over its lines (over
all lines otherwise). -/
def extract_ingredients_from_text (parse : Str → List Str) (text : Str) : List Str :=
  let clean := removePairs '_' (removePairs '*' text)
  let lines :=
    match findSection clean with
    | some body => (takeSection body).splitOn '\n'
    | none => clean.splitOn '\n'
  (lines.foldl (parse_line parse) { seen := [], ingredients := [] }).ingredients

/-- Result bundle of `evaluate_grounded`. -/
structure EvaluationReport where
  extracted_ingredients : List Str
  constraint_check : ConstraintReport
  grounding_check : GroundingReport
  overall_valid : Bool
deriving DecidableEq, Repr

/-- Embeds `evaluate_grounded`: extraction once, both checks, and
`overall_valid = not constraint_result["violated"]`. -/
def evaluate_grounded (parse : Str → List Str) (lem : Str → Str) (text : Str)
    (allowed_ingredients : List Str) (use_lemma : Bool) : EvaluationReport :=
  let extracted := extract_ingredients_from_text parse text
  let constraint_result := check_constraint_violations text
  let grounding_result :=
    check_grounding_violations lem use_lemma extracted allowed_ingredients
  { extracted_ingredients := extracted
    constraint_check := constraint_result
    grounding_check := grounding_result
    overall_valid := !constraint_result.violated }

/-! ### Embedding of `src/evaluation/hallucination_checker.py` -/

/-- Report of `check_constraint_violation` (hallucination checker). -/
structure HallucinationReport where
  violated : Bool
  violations : List Str
  message : Str
deriving DecidableEq, Repr

/-- Embeds `check_constraint_violation`: collect every forbidden ingredient
occurring as a substring of the lowercased text. -/
def check_constraint_violation (adapted_text : Str) (constraint : Str)
    (forbidden_ingredients : List Str) : HallucinationReport :=
  let adapted_lower := lowerStr adapted_text
  let found_forbidden :=
    forbidden_ingredients.filter (fun ing => decide (ing <:+: adapted_lower))
  if !found_forbidden.isEmpty then
    { violated := true
      violations := found_forbidden
      message := str ("Constraint '") ++ constraint ++ str ("' violated: found ") ++
        List.intercalate (str (", ")) found_forbidden }
  else
    { violated := false
      violations := []
      message := str ("Constraint '") ++ constraint ++ str ("' satisfied") }

theorem toNat_ofNat_of_valid {n : Nat} (h : n < 0xd800) : (Char.ofNat n).toNat = n := by
  rw [Char.ofNat, dif_pos (Or.inl h)]
  simp [Char.ofNatAux, Char.toNat, UInt32.ofNat', UInt32.toNat]

theorem lowerChar_of_upper {c : Char} (h : 65 ≤ c.toNat ∧ c.toNat ≤ 90) :
    lowerChar c = Char.ofNat (c.toNat + 32) := by
  rw [lowerChar, if_pos h]

theorem lowerChar_of_not_upper {c : Char} (h : ¬(65 ≤ c.toNat ∧ c.toNat ≤ 90)) :
    lowerChar c = c := by
  rw [lowerChar, if_neg h]

theorem lowerChar_toNat_of_upper {c : Char} (h : 65 ≤ c.toNat ∧ c.toNat ≤ 90) :
    (lowerChar c).toNat = c.toNat + 32 := by
  rw [lowerChar_of_upper h]
  exact toNat_ofNat_of_valid (by omega)

theorem lowerChar_lowerChar (c : Char) : lowerChar (lowerChar c) = lowerChar c := by
  by_cases h : 65 ≤ c.toNat ∧ c.toNat ≤ 90
  · have h2 : (lowerChar c).toNat = c.toNat + 32 := lowerChar_toNat_of_upper h
    exact lowerChar_of_not_upper (by omega)
  · rw [lowerChar_of_not_upper h, lowerChar_of_not_upper h]

theorem toNat_eq_iff_eq {c d : Char} : c = d ↔ c.toNat = d.toNat := by
  constructor
  · rintro rfl; rfl
  · intro h
    apply Char.ext
    exact UInt32.toNat.inj h

theorem isWhitespace_toNat (c : Char) :
    c.isWhitespace =
      (decide (c.toNat = 32) || decide (c.toNat = 9) ||
       decide (c.toNat = 13) || decide (c.toNat = 10)) := by
  simp only [Char.isWhitespace, toNat_eq_iff_eq]
  rfl

theorem isWhitespace_lowerChar (c : Char) :
    (lowerChar c).isWhitespace = c.isWhitespace := by
  by_cases h : 65 ≤ c.toNat ∧ c.toNat ≤ 90
  · have h2 : (lowerChar c).toNat = c.toNat + 32 := lowerChar_toNat_of_upper h
    obtain ⟨h1, h3⟩ := h
    rw [isWhitespace_toNat, isWhitespace_toNat c, h2,
      decide_eq_false (by omega : ¬(c.toNat + 32 = 32)),
      decide_eq_false (by omega : ¬(c.toNat + 32 = 9)),
      decide_eq_false (by omega : ¬(c.toNat + 32 = 13)),
      decide_eq_false (by omega : ¬(c.toNat + 32 = 10)),
      decide_eq_false (by omega : ¬(c.toNat = 32)),
      decide_eq_false (by omega : ¬(c.toNat = 9)),
      decide_eq_false (by omega : ¬(c.toNat = 13)),
      decide_eq_false (by omega : ¬(c.toNat = 10))]
  · rw [lowerChar_of_not_upper h]

theorem lowerStr_lowerStr (s : Str) : lowerStr (lowerStr s) = lowerStr s := by
  simp only [lowerStr, List.map_map]
  exact List.map_congr_left (fun c _ => lowerChar_lowerChar c)

theorem lowerStr_append (s t : Str) :
    lowerStr (s ++ t) = lowerStr s ++ lowerStr t := by
  simp [lowerStr]

theorem ws_pred_lowerChar :
    (fun c => (lowerChar c).isWhitespace) = (fun c : Char => c.isWhitespace) := by
  funext c
  exact isWhitespace_lowerChar c

theorem rdropWhile_map (f : α → β) (p : β → Bool) (l : List α) :
    (l.map f).rdropWhile p = (l.rdropWhile (fun a => p (f a))).map f := by
  simp [List.rdropWhile, ← List.map_reverse, List.dropWhile_map, Function.comp_def]

theorem trimStr_lowerStr (s : Str) : trimStr (lowerStr s) = lowerStr (trimStr s) := by
  simp only [trimStr, lowerStr, List.dropWhile_map, rdropWhile_map, Function.comp_def,
    ws_pred_lowerChar]

theorem dropWhile_ws_append {a : Str} (s : Str) (ha : ∀ c ∈ a, c.isWhitespace) :
    (a ++ s).dropWhile (fun c => c.isWhitespace) = s.dropWhile (fun c => c.isWhitespace) := by
  induction a with
  | nil => rfl
  | cons c t ih =>
    rw [List.cons_append, List.dropWhile_cons, if_pos (ha c (by simp))]
    exact ih (fun x hx => ha x (by simp [hx]))

theorem rdropWhile_ws_append {b : Str} (s : Str) (hb : ∀ c ∈ b, c.isWhitespace) :
    (s ++ b).rdropWhile (fun c => c.isWhitespace) = s.rdropWhile (fun c => c.isWhitespace) := by
  induction b using List.reverseRecOn with
  | nil => rw [List.append_nil]
  | append_singleton b' x ih =>
    rw [← List.append_assoc, List.rdropWhile_concat_pos _ _ _ (hb x (by simp))]
    exact ih (fun c hc => hb c (by simp [hc]))

theorem trimStr_pad (a s b : Str) (ha : ∀ c ∈ a, c.isWhitespace)
    (hb : ∀ c ∈ b, c.isWhitespace) : trimStr (a ++ s ++ b) = trimStr s := by
  rw [trimStr, List.append_assoc, dropWhile_ws_append _ ha]
  rw [List.dropWhile_append]
  split
  · rename_i h
    have hs : s.dropWhile (fun c => c.isWhitespace) = [] := by
      simpa using h
    have hb2 : b.dropWhile (fun c => c.isWhitespace) = [] :=
      List.dropWhile_eq_nil_iff.mpr hb
    rw [hb2, trimStr, hs, List.rdropWhile_nil]
  · rename_i h
    rw [rdropWhile_ws_append _ hb, trimStr]

theorem dropWhile_trimStr (s : Str) :
    (trimStr s).dropWhile (fun c => c.isWhitespace) = trimStr s := by
  rw [trimStr]
  have hpre : (s.dropWhile fun c => c.isWhitespace).rdropWhile (fun c => c.isWhitespace)
      <+: s.dropWhile (fun c => c.isWhitespace) := List.rdropWhile_prefix _ _
  obtain ⟨t, ht⟩ := hpre
  cases hr : (s.dropWhile fun c => c.isWhitespace).rdropWhile (fun c => c.isWhitespace) with
  | nil => rfl
  | cons c cs =>
    rw [List.dropWhile_cons, if_neg]
    rw [hr] at ht
    have hc : (s.dropWhile fun c => c.isWhitespace) = c :: (cs ++ t) := by
      rw [← ht]; simp
    have := List.dropWhile_idempotent (l := s) (p := fun c => c.isWhitespace)
    rw [hc, List.dropWhile_cons] at this
    by_contra hcw
    simp only [hcw, if_true, if_pos] at this
    have hlen := congrArg List.length this
    have hle := (List.dropWhile_sublist (l := cs ++ t) (fun c : Char => c.isWhitespace)).length_le
    simp only [List.length_cons, List.length_append] at hlen hle
    omega

theorem trimStr_trimStr (s : Str) : trimStr (trimStr s) = trimStr s := by
  rw [trimStr, dropWhile_trimStr, trimStr, List.rdropWhile_idempotent]

theorem trimStr_eq_self (s : Str)
    (hh : ∀ c, s.head? = some c → c.isWhitespace = false)
    (hl : ∀ c, s.getLast? = some c → c.isWhitespace = false) :
    trimStr s = s := by
  cases s with
  | nil => rfl
  | cons a t =>
    rw [trimStr, List.dropWhile_cons, if_neg (by simp [hh a rfl])]
    rw [List.rdropWhile_eq_self_iff]
    intro hne
    rw [hl ((a :: t).getLast hne) (List.getLast?_eq_getLast _ hne)]
    simp

theorem intercalate_nil_words (sep : Str) : List.intercalate sep [] = [] := rfl

theorem intercalate_single (sep : Str) (a : Str) : List.intercalate sep [a] = a := by
  simp [List.intercalate]

theorem intercalate_cons₂ (sep a b : Str) (r : List Str) :
    List.intercalate sep (a :: b :: r) = a ++ sep ++ List.intercalate sep (b :: r) := by
  simp [List.intercalate, List.intersperse_cons_cons]

theorem pyWords_nil : pyWords [] = [] := rfl

theorem pyWords_cons_ws {c : Char} (s : Str) (h : c.isWhitespace = true) :
    pyWords (c :: s) = pyWords s := by
  simp [pyWords, List.splitOnP_cons, h]

theorem pyWords_single_word (w : Str) (hne : w ≠ [])
    (hws : ∀ c ∈ w, c.isWhitespace = false) : pyWords w = [w] := by
  rw [pyWords, List.splitOnP_eq_single _ _ (by simpa using hws)]
  simp [hne]

theorem pyWords_word_sep (w : Str) {c : Char} (s : Str) (hne : w ≠ [])
    (hws : ∀ x ∈ w, x.isWhitespace = false) (hc : c.isWhitespace = true) :
    pyWords (w ++ c :: s) = w :: pyWords s := by
  rw [pyWords, List.splitOnP_first _ _ (by simpa using hws) c hc]
  simp [pyWords, hne]

theorem pyWords_intercalate (ts : List Str)
    (h : ∀ w ∈ ts, w ≠ [] ∧ ∀ c ∈ w, c.isWhitespace = false) :
    pyWords (List.intercalate [' '] ts) = ts := by
  induction ts with
  | nil => rfl
  | cons t rest ih =>
    cases rest with
    | nil =>
      rw [intercalate_single]
      exact pyWords_single_word t (h t (by simp)).1 (h t (by simp)).2
    | cons t2 r2 =>
      rw [intercalate_cons₂, List.append_assoc, List.singleton_append]
      rw [pyWords_word_sep t _ (h t (by simp)).1 (h t (by simp)).2 (by decide)]
      rw [ih (fun w hw => h w (by simp [hw]))]

theorem mem_of_head?_some {α : Type _} {l : List α} {a : α} (h : l.head? = some a) :
    a ∈ l := by
  cases l with
  | nil => simp at h
  | cons b t =>
    simp only [List.head?_cons, Option.some.injEq] at h
    simp [← h]

theorem mem_of_getLast?_some {α : Type _} {l : List α} {a : α} (h : l.getLast? = some a) :
    a ∈ l := by
  obtain ⟨hne, rfl⟩ := List.mem_getLast?_eq_getLast (show a ∈ l.getLast? from h)
  exact List.getLast_mem hne

theorem map_intercalate (f : Char → Char) (sep : Str) (ls : List Str) :
    (List.intercalate sep ls).map f =
      List.intercalate (sep.map f) (ls.map (List.map f)) := by
  induction ls with
  | nil => rfl
  | cons a r ih =>
    cases r with
    | nil => simp [intercalate_single]
    | cons b r2 =>
      rw [intercalate_cons₂, List.map_append, List.map_append, ih]
      simp [intercalate_cons₂]

theorem intercalate_ne_nil (ts : List Str) (hne : ts ≠ []) (h : ∀ w ∈ ts, w ≠ []) :
    List.intercalate [' '] ts ≠ [] := by
  cases ts with
  | nil => exact absurd rfl hne
  | cons t r =>
    cases r with
    | nil => rw [intercalate_single]; exact h t (by simp)
    | cons b r2 =>
      rw [intercalate_cons₂]
      exact List.append_ne_nil_of_left_ne_nil
        (List.append_ne_nil_of_left_ne_nil (h t (by simp)) _) _

theorem intercalate_getLast?_ws (ts : List Str)
    (h : ∀ w ∈ ts, w ≠ [] ∧ ∀ c ∈ w, c.isWhitespace = false) :
    ∀ c, (List.intercalate [' '] ts).getLast? = some c → c.isWhitespace = false := by
  induction ts with
  | nil =>
    intro c hc
    rw [intercalate_nil_words] at hc
    simp at hc
  | cons t r ih =>
    cases r with
    | nil =>
      intro c hc
      rw [intercalate_single] at hc
      exact (h t (by simp)).2 c (mem_of_getLast?_some hc)
    | cons b r2 =>
      intro c hc
      rw [intercalate_cons₂, List.getLast?_append] at hc
      cases hgl : (List.intercalate [' '] (b :: r2)).getLast? with
      | none =>
        exact absurd (List.getLast?_eq_none_iff.mp hgl)
          (intercalate_ne_nil _ (by simp) (fun w hw => (h w (by simp [hw])).1))
      | some d =>
        rw [hgl] at hc
        simp only [Option.or_some, Option.some.injEq] at hc
        subst hc
        exact ih (fun w hw => h w (by simp [hw])) _ hgl

theorem intercalate_head?_ws (ts : List Str)
    (h : ∀ w ∈ ts, w ≠ [] ∧ ∀ c ∈ w, c.isWhitespace = false) :
    ∀ c, (List.intercalate [' '] ts).head? = some c → c.isWhitespace = false := by
  cases ts with
  | nil =>
    intro c hc
    rw [intercalate_nil_words] at hc
    simp at hc
  | cons t r =>
    cases r with
    | nil =>
      intro c hc
      rw [intercalate_single] at hc
      exact (h t (by simp)).2 c (mem_of_head?_some hc)
    | cons b r2 =>
      intro c hc
      rw [intercalate_cons₂, List.append_assoc, List.head?_append] at hc
      cases hhd : t.head? with
      | none => exact absurd (List.head?_eq_none_iff.mp hhd) (h t (by simp)).1
      | some d =>
        rw [hhd] at hc
        simp only [Option.or_some, Option.some.injEq] at hc
        subst hc
        exact (h t (by simp)).2 _ (mem_of_head?_some hhd)

theorem trimStr_intercalate (ts : List Str)
    (h : ∀ w ∈ ts, w ≠ [] ∧ ∀ c ∈ w, c.isWhitespace = false) :
    trimStr (List.intercalate [' '] ts) = List.intercalate [' '] ts :=
  trimStr_eq_self _ (intercalate_head?_ws ts h) (intercalate_getLast?_ws ts h)

theorem jaccard_nonneg {α : Type _} [DecidableEq α] (A B : Finset α) :
    0 ≤ jaccard_similarity A B := by
  rw [jaccard_similarity]
  split
  · exact le_refl 0
  split
  · exact le_refl 0
  · positivity

theorem jaccard_le_one {α : Type _} [DecidableEq α] (A B : Finset α) :
    jaccard_similarity A B ≤ 1 := by
  rw [jaccard_similarity]
  split
  · exact zero_le_one
  split
  · exact zero_le_one
  · rename_i h1 h2
    rw [div_le_one (by exact_mod_cast Finset.card_pos.mpr (Finset.nonempty_iff_ne_empty.mpr h2))]
    exact_mod_cast Finset.card_le_card (Finset.inter_subset_union (s := A) (t := B))

/-- C4: `jaccard_similarity` equals `|A∩B| / |A∪B|` whenever the union is
non-empty and `0` when both sets are empty; hence it is `1` on a non-empty
set against itself, `0` on two empty sets, symmetric, and always in `[0, 1]`. -/
theorem C4_jaccard_similarity_spec {α : Type _} [DecidableEq α] (A B : Finset α) :
    (A ∪ B ≠ ∅ → jaccard_similarity A B = ((A ∩ B).card : ℚ) / ((A ∪ B).card : ℚ)) ∧
    jaccard_similarity (∅ : Finset α) ∅ = 0 ∧
    (A ≠ ∅ → jaccard_similarity A A = 1) ∧
    jaccard_similarity A B = jaccard_similarity B A ∧
    0 ≤ jaccard_similarity A B ∧ jaccard_similarity A B ≤ 1 := by
  refine ⟨?_, ?_, ?_, ?_, jaccard_nonneg A B, jaccard_le_one A B⟩
  · intro hu
    rw [jaccard_similarity, if_neg, if_neg hu]
    rintro ⟨rfl, rfl⟩
    exact hu (Finset.union_empty _)
  · simp [jaccard_similarity]
  · intro hA
    rw [jaccard_similarity, if_neg (fun h => hA h.1), if_neg (by simpa using hA),
      Finset.inter_self, Finset.union_self, div_self]
    exact_mod_cast Finset.card_ne_zero_of_mem
      (Finset.nonempty_iff_ne_empty.mpr hA).choose_spec
  · rw [jaccard_similarity, jaccard_similarity, Finset.inter_comm, Finset.union_comm]
    simp [and_comm]

/-- Witness for C4 at `A = {0}`, `B = {0, 1}` over `ℕ`. -/
theorem C4_jaccard_similarity_spec_witness :
    jaccard_similarity ({0} : Finset ℕ) {0, 1} = 1/2 ∧
    jaccard_similarity ({0} : Finset ℕ) {0} = 1 := by
  constructor
  · have h := (C4_jaccard_similarity_spec ({0} : Finset ℕ) {0, 1}).1 (by decide)
    have h1 : (({0} : Finset ℕ) ∩ {0, 1}).card = 1 := by decide
    have h2 : (({0} : Finset ℕ) ∪ {0, 1}).card = 2 := by decide
    rw [h, h1, h2]
    norm_num
  · exact (C4_jaccard_similarity_spec ({0} : Finset ℕ) {0}).2.2.1 (by decide)

/-- C2: `evaluate_grounded` computes `overall_valid` as the negation of the
constraint check's `violated` flag alone; changing the allowed set (hence the
grounding check) never changes `overall_valid`. -/
theorem C2_overall_valid_from_constraint_only (parse : Str → List Str) (lem : Str → Str)
    (text : Str) (allowed allowed2 : List Str) (u u2 : Bool) :
    (evaluate_grounded parse lem text allowed u).overall_valid
        = !(evaluate_grounded parse lem text allowed u).constraint_check.violated ∧
    (evaluate_grounded parse lem text allowed u).constraint_check
        = check_constraint_violations text ∧
    (evaluate_grounded parse lem text allowed u).overall_valid
        = (evaluate_grounded parse lem text allowed2 u2).overall_valid :=
  ⟨rfl, rfl, rfl⟩

theorem check_constraint_violation_violations (text constraint : Str)
    (forbidden : List Str) :
    (check_constraint_violation text constraint forbidden).violations
      = forbidden.filter (fun kw => decide (kw <:+: lowerStr text)) := by
  rw [check_constraint_violation]
  split
  · rfl
  · rename_i h
    have h2 : forbidden.filter (fun ing => decide (ing <:+: lowerStr text)) = [] := by
      simpa using h
    simp [h2]

theorem check_constraint_violation_violated (text constraint : Str)
    (forbidden : List Str) :
    (check_constraint_violation text constraint forbidden).violated = true ↔
      ∃ kw ∈ forbidden, kw <:+: lowerStr text := by
  rw [check_constraint_violation]
  split
  · rename_i h
    simp only [Bool.not_eq_eq_eq_not, Bool.not_true, List.isEmpty_eq_false] at h
    constructor
    · intro _
      obtain ⟨kw, hkw⟩ := List.exists_mem_of_ne_nil _ h
      have hm := List.mem_filter.mp hkw
      exact ⟨kw, hm.1, of_decide_eq_true hm.2⟩
    · intro _; rfl
  · rename_i h
    have h2 : forbidden.filter (fun ing => decide (ing <:+: lowerStr text)) = [] := by
      simpa using h
    constructor
    · intro hfalse; cases hfalse
    · rintro ⟨kw, hmem, hinf⟩
      have hm : kw ∈ forbidden.filter (fun ing => decide (ing <:+: lowerStr text)) :=
        List.mem_filter.mpr ⟨hmem, decide_eq_true hinf⟩
      rw [h2] at hm
      cases hm

theorem check_constraint_violations_violated (text : Str) :
    (check_constraint_violations text).violated = true ↔
      ∃ kw ∈ MEAT_KEYWORDS, kw <:+: lowerStr text := by
  simp only [check_constraint_violations, decide_eq_true_eq,
    List.length_pos_iff_exists_mem, List.mem_filter]

/-- C3, counterexample: the claim reads the check as case-insensitive
occurrence of the keyword, but the source lowercases only the text, so an
uppercase keyword never matches: `"Chicken"` against `"chicken broth"` is a
case-insensitive occurrence yet the check reports no violation. -/
theorem C3_counterexample_uppercase_keyword :
    (check_constraint_violation (str ("chicken broth")) (str ("vegetarian"))
        [str ("Chicken")]).violated = false ∧
    lowerStr (str ("Chicken")) <:+: lowerStr (str ("chicken broth")) := by
  constructor
  · decide
  · decide

/-- C3, amended: the `violated` flag is true iff a forbidden keyword occurs
as a substring of the *lowercased* text (for lowercase keywords — the
documented contract — this is case-insensitive occurrence; an uppercase
keyword never matches).  `violations` is exactly the sublist of matched
keywords, one entry per keyword regardless of occurrence count, with no
duplicates when the keyword list has none; the grounded checker's fixed meat
list behaves the same way, with `count` the length of `violations`. -/
theorem C3_constraint_check_amended (text constraint : Str) (forbidden : List Str)
    (hlc : ∀ kw ∈ forbidden, lowerStr kw = kw) :
    ((check_constraint_violation text constraint forbidden).violated = true ↔
      ∃ kw ∈ forbidden, lowerStr kw <:+: lowerStr text) ∧
    (check_constraint_violation text constraint forbidden).violations
      = forbidden.filter (fun kw => decide (kw <:+: lowerStr text)) ∧
    (∀ kw, kw ∈ (check_constraint_violation text constraint forbidden).violations ↔
      kw ∈ forbidden ∧ lowerStr kw <:+: lowerStr text) ∧
    (forbidden.Nodup →
      (check_constraint_violation text constraint forbidden).violations.Nodup) ∧
    ((check_constraint_violations text).violated = true ↔
      ∃ kw ∈ MEAT_KEYWORDS, lowerStr kw <:+: lowerStr text) ∧
    (check_constraint_violations text).violations
      = MEAT_KEYWORDS.filter (fun kw => decide (kw <:+: lowerStr text)) ∧
    (check_constraint_violations text).count
      = (check_constraint_violations text).violations.length := by
  refine ⟨?_, check_constraint_violation_violations text constraint forbidden, ?_, ?_, ?_, rfl, rfl⟩
  · rw [check_constraint_violation_violated]
    constructor
    · rintro ⟨kw, hkw, hinf⟩
      exact ⟨kw, hkw, by rw [hlc kw hkw]; exact hinf⟩
    · rintro ⟨kw, hkw, hinf⟩
      exact ⟨kw, hkw, by rw [← hlc kw hkw]; exact hinf⟩
  · intro kw
    rw [check_constraint_violation_violations]
    rw [List.mem_filter]
    constructor
    · rintro ⟨hkw, hd⟩
      exact ⟨hkw, by rw [hlc kw hkw]; exact of_decide_eq_true hd⟩
    · rintro ⟨hkw, hinf⟩
      exact ⟨hkw, decide_eq_true (by rw [hlc kw hkw] at hinf; exact hinf)⟩
  · intro hnd
    rw [check_constraint_violation_violations]
    exact hnd.filter _
  · rw [check_constraint_violations_violated]
    have hm : ∀ kw ∈ MEAT_KEYWORDS, lowerStr kw = kw := by decide
    constructor
    · rintro ⟨kw, hkw, hinf⟩
      exact ⟨kw, hkw, by rw [hm kw hkw]; exact hinf⟩
    · rintro ⟨kw, hkw, hinf⟩
      exact ⟨kw, hkw, by rw [← hm kw hkw]; exact hinf⟩

/-- Witness for C3 (amended) on the spec's concrete example: a text containing
"chicken broth" against the meat keywords is violated with violations
`["chicken"]`. -/
theorem C3_constraint_check_amended_witness :
    (check_constraint_violations (str ("Use chicken broth."))).violated = true ∧
    (check_constraint_violations (str ("Use chicken broth."))).violations
      = [str ("chicken")] := by
  constructor
  · rw [(C3_constraint_check_amended (str ("Use chicken broth.")) (str ("vegetarian"))
      [] (by simp)).2.2.2.2.1]
    exact ⟨str ("chicken"), by decide, by decide⟩
  · decide

theorem dictFold_eq_append {K V : Type _} [DecidableEq K] :
    ∀ (ps acc : List (K × V)), ((acc ++ ps).map Prod.fst).Nodup →
      ps.foldl (fun m p => dictInsert m p.1 p.2) acc = acc ++ ps := by
  intro ps
  induction ps with
  | nil => intro acc _; simp
  | cons p rest ih =>
    intro acc h
    have hk : p.1 ∉ acc.map Prod.fst := by
      simp only [List.map_append, List.nodup_append, List.map_cons] at h
      intro hmem
      exact h.2.2 hmem (by simp)
    rw [List.foldl_cons]
    have hins : dictInsert acc p.1 p.2 = acc ++ [(p.1, p.2)] := by
      rw [dictInsert, if_neg hk]
    rw [hins]
    have h2 : (((acc ++ [(p.1, p.2)]) ++ rest).map Prod.fst).Nodup := by
      rw [List.append_assoc]
      simpa using h
    have := ih (acc ++ [(p.1, p.2)]) h2
    rw [this, List.append_assoc]
    rfl

theorem dictOfList_eq_self {K V : Type _} [DecidableEq K] (ps : List (K × V))
    (h : (ps.map Prod.fst).Nodup) : dictOfList ps = ps := by
  have := dictFold_eq_append ps [] (by simpa using h)
  simpa [dictOfList] using this

/-- C1, counterexample: the grounding report is keyed by *normalized* form,
so two extracted strings with the same normalized form collapse into one dict
entry (the last original wins).  Against an empty allowed set both `"Tofu"`
and `"tofu"` are novel extracted ingredients, yet the report lists only
`["tofu"]` with `count = 1` (not 2), and `"Tofu"` is missing from
`novel_ingredients`. -/
theorem C1_counterexample_collapsed_normalized_forms :
    (∀ ing ∈ [str ("Tofu"), str ("tofu")],
      normalize_ingredient (fun w => w) false ing ∉
        normalize_ingredient_set (fun w => w) false []) ∧
    (check_grounding_violations (fun w => w) false
        [str ("Tofu"), str ("tofu")] []).novel_ingredients = [str ("tofu")] ∧
    (check_grounding_violations (fun w => w) false
        [str ("Tofu"), str ("tofu")] []).count = 1 ∧
    str ("Tofu") ∉ (check_grounding_violations (fun w => w) false
        [str ("Tofu"), str ("tofu")] []).novel_ingredients := by
  refine ⟨by decide, by decide, by decide, by decide⟩

/-- C1, amended: when the extracted strings have pairwise-distinct normalized
forms (in particular whenever no two extracted strings normalize alike — the
dict comprehension otherwise collapses them, keeping one entry per normalized
form with the last original string), an extracted ingredient is reported
novel iff its normalized form is absent from the normalized allowed set;
`novel_ingredients` is exactly the sublist of originals of novel ones,
`count` its length, `extracted_count` the number of extracted ingredients,
`violated` iff `count > 0`, and an empty allowed set makes every extracted
ingredient novel. -/
theorem C1_grounding_check_amended (lem : Str → Str) (u : Bool)
    (extracted allowed : List Str)
    (h : (extracted.map (normalize_ingredient lem u)).Nodup) :
    (check_grounding_violations lem u extracted allowed).novel_ingredients
      = extracted.filter (fun ing =>
          decide (normalize_ingredient lem u ing ∉
            normalize_ingredient_set lem u allowed)) ∧
    (∀ ing ∈ extracted,
      (ing ∈ (check_grounding_violations lem u extracted allowed).novel_ingredients ↔
        normalize_ingredient lem u ing ∉ normalize_ingredient_set lem u allowed)) ∧
    (check_grounding_violations lem u extracted allowed).count
      = (check_grounding_violations lem u extracted allowed).novel_ingredients.length ∧
    (check_grounding_violations lem u extracted allowed).extracted_count
      = extracted.length ∧
    ((check_grounding_violations lem u extracted allowed).violated = true ↔
      0 < (check_grounding_violations lem u extracted allowed).count) ∧
    (allowed = [] →
      (check_grounding_violations lem u extracted allowed).novel_ingredients
        = extracted) := by
  have hdict : dictOfList (extracted.map
      (fun ing => (normalize_ingredient lem u ing, ing)))
      = extracted.map (fun ing => (normalize_ingredient lem u ing, ing)) := by
    apply dictOfList_eq_self
    rw [List.map_map]
    exact h
  have hnovel : (check_grounding_violations lem u extracted allowed).novel_ingredients
      = extracted.filter (fun ing =>
          decide (normalize_ingredient lem u ing ∉
            normalize_ingredient_set lem u allowed)) := by
    rw [check_grounding_violations]
    simp only [hdict]
    rw [List.filter_map, List.map_map]
    simp [Function.comp_def]
  refine ⟨hnovel, ?_, ?_, rfl, ?_, ?_⟩
  · intro ing hing
    rw [hnovel, List.mem_filter]
    constructor
    · intro hmem
      exact of_decide_eq_true hmem.2
    · intro hni
      exact ⟨hing, decide_eq_true hni⟩
  · rw [check_grounding_violations]
  · rw [check_grounding_violations]
    simp
  · intro hempty
    subst hempty
    rw [hnovel]
    apply List.filter_eq_self.mpr
    intro ing _
    apply decide_eq_true
    simp [normalize_ingredient_set]

/-- Witness for C1 (amended) on the spec's concrete example:
`extracted = ["tofu", "tomato"]`, `allowed = {"tofu"}` yields
`violated = true`, novel list `["tomato"]`, `count = 1`. -/
theorem C1_grounding_check_amended_witness :
    (([str ("tofu"), str ("tomato")].map
        (normalize_ingredient (fun w => w) false)).Nodup) ∧
    (check_grounding_violations (fun w => w) false [str ("tofu"), str ("tomato")]
        [str ("tofu")]).novel_ingredients = [str ("tomato")] ∧
    (check_grounding_violations (fun w => w) false [str ("tofu"), str ("tomato")]
        [str ("tofu")]).violated = true ∧
    (check_grounding_violations (fun w => w) false [str ("tofu"), str ("tomato")]
        [str ("tofu")]).count = 1 := by
  refine ⟨by decide, ?_, by decide, by decide⟩
  rw [(C1_grounding_check_amended (fun w => w) false [str ("tofu"), str ("tomato")]
    [str ("tofu")] (by decide)).1]
  decide

instance {β : Type _} : IsTotal (β × ℚ) scoreGE :=
  ⟨fun a b => le_total b.2 a.2⟩

instance {β : Type _} : IsTrans (β × ℚ) scoreGE :=
  ⟨fun _ _ _ h1 h2 => le_trans h2 h1⟩

theorem sortByScoreDesc_sorted {β : Type _} (l : List (β × ℚ)) :
    List.Sorted scoreGE (sortByScoreDesc l) :=
  List.sorted_insertionSort scoreGE l

theorem sortByScoreDesc_perm {β : Type _} (l : List (β × ℚ)) :
    List.Perm (sortByScoreDesc l) l :=
  List.perm_insertionSort scoreGE l

/-- Stability of the descending sort: the pairs carrying any one score value
appear in the sorted list exactly as they appear in the input. -/
theorem sortByScoreDesc_stable {β : Type _} (l : List (β × ℚ)) (s : ℚ) :
    (sortByScoreDesc l).filter (fun p => decide (p.2 = s))
      = l.filter (fun p => decide (p.2 = s)) := by
  have hpw : (l.filter (fun p => decide (p.2 = s))).Pairwise scoreGE := by
    apply List.pairwise_of_forall_mem_list
    intro a ha b hb
    have ha2 := of_decide_eq_true (List.mem_filter.mp ha).2
    have hb2 := of_decide_eq_true (List.mem_filter.mp hb).2
    rw [scoreGE, ha2, hb2]
  have hsub : List.Sublist (l.filter (fun p => decide (p.2 = s))) (sortByScoreDesc l) :=
    List.sublist_insertionSort hpw (List.filter_sublist l)
  have hsub2 : List.Sublist (l.filter (fun p => decide (p.2 = s)))
      ((sortByScoreDesc l).filter (fun p => decide (p.2 = s))) := by
    have hself : (l.filter (fun p => decide (p.2 = s))).filter (fun p => decide (p.2 = s))
        = l.filter (fun p => decide (p.2 = s)) := by
      apply List.filter_eq_self.mpr
      intro a ha
      exact (List.mem_filter.mp ha).2
    rw [← hself]
    exact hsub.filter _
  have hlen : ((sortByScoreDesc l).filter (fun p => decide (p.2 = s))).length
      = (l.filter (fun p => decide (p.2 = s))).length :=
    ((sortByScoreDesc_perm l).filter _).length_eq
  exact (hsub2.eq_of_length hlen.symm).symm

theorem name_jaccard_nonneg (n1 n2 : Str) : 0 ≤ name_jaccard n1 n2 :=
  jaccard_nonneg _ _

theorem name_jaccard_le_one (n1 n2 : Str) : name_jaccard n1 n2 ≤ 1 :=
  jaccard_le_one _ _

theorem combined_similarity_nonneg (r1 r2 : Recipe) (i1 i2 : Finset Str) :
    0 ≤ combined_similarity r1 r2 i1 i2 ALPHA := by
  rw [combined_similarity, ALPHA]
  have h1 := jaccard_nonneg i1 i2
  have h2 := name_jaccard_nonneg (r1.name.getD []) (r2.name.getD [])
  nlinarith

theorem combined_similarity_le_one (r1 r2 : Recipe) (i1 i2 : Finset Str) :
    combined_similarity r1 r2 i1 i2 ALPHA ≤ 1 := by
  rw [combined_similarity, ALPHA]
  have h1 := jaccard_le_one i1 i2
  have h2 := name_jaccard_le_one (r1.name.getD []) (r2.name.getD [])
  have h3 := jaccard_nonneg i1 i2
  have h4 := name_jaccard_nonneg (r1.name.getD []) (r2.name.getD [])
  nlinarith

/-- C9: the ID-indexed `retrieve_similar` fails with the descriptive lookup
error exactly when no corpus recipe carries the query id, and returns a
result list otherwise; the object-mode `retrieve_similar_recipes` is a total
function of its inputs (it has no error outcome), always the truncated stable
sort of the scored non-self candidates. -/
theorem C9_cc_lookup_error (query_recipe_id : Str) (recipes : List Recipe)
    (top_k : Nat) :
    ((¬ ∃ r ∈ recipes, r.id = query_recipe_id) →
      retrieve_similar query_recipe_id recipes top_k
        = .error (str ("Recipe ") ++ query_recipe_id ++ str (" not found"))) ∧
    ((∃ r ∈ recipes, r.id = query_recipe_id) →
      ∃ res, retrieve_similar query_recipe_id recipes top_k = .ok res) ∧
    (∀ query_recipe corpus, retrieve_similar_recipes query_recipe corpus top_k
      = (sortByScoreDesc (groundedScored query_recipe corpus)).take top_k) := by
  refine ⟨?_, ?_, fun _ _ => rfl⟩
  · intro hno
    rw [retrieve_similar]
    have hfind : recipes.find? (fun r => decide (r.id = query_recipe_id)) = none := by
      rw [List.find?_eq_none]
      intro r hr hd
      exact hno ⟨r, hr, of_decide_eq_true hd⟩
    rw [hfind]
  · rintro ⟨r, hr, hid⟩
    rw [retrieve_similar]
    have hsome : (recipes.find? (fun r => decide (r.id = query_recipe_id))).isSome := by
      rw [List.find?_isSome]
      exact ⟨r, hr, decide_eq_true hid⟩
    obtain ⟨q, hq⟩ := Option.isSome_iff_exists.mp hsome
    rw [hq]
    exact ⟨_, rfl⟩

/-- Witness for C9: a one-recipe corpus with id "r2" — querying "r1" errors,
querying "r2" succeeds. -/
theorem C9_cc_lookup_error_witness :
    (¬ ∃ r ∈ [({ id := str ("r2") } : Recipe)], r.id = str ("r1")) ∧
    retrieve_similar (str ("r1")) [({ id := str ("r2") } : Recipe)] 2
      = .error (str ("Recipe ") ++ str ("r1") ++ str (" not found")) ∧
    (∃ r ∈ [({ id := str ("r2") } : Recipe)], r.id = str ("r2")) ∧
    (∃ res, retrieve_similar (str ("r2")) [({ id := str ("r2") } : Recipe)] 2 = .ok res) := by
  refine ⟨by decide, ?_, ⟨{ id := str ("r2") }, by simp, rfl⟩, ?_⟩
  · exact (C9_cc_lookup_error (str ("r1")) [({ id := str ("r2") } : Recipe)] 2).1 (by decide)
  · exact (C9_cc_lookup_error (str ("r2")) [({ id := str ("r2") } : Recipe)] 2).2.1 ⟨{ id := str ("r2") }, by simp, rfl⟩

theorem mem_groundedScored {query_recipe : Recipe} {corpus : List Recipe}
    {p : Recipe × ℚ} (hp : p ∈ groundedScored query_recipe corpus) :
    p.1 ∈ corpus ∧ ¬p.1.name = query_recipe.name ∧
      p.2 = combined_similarity query_recipe p.1 (get_ingredients query_recipe)
        (get_ingredients p.1) ALPHA := by
  obtain ⟨r, hr, rfl⟩ := List.mem_map.mp hp
  have hf := List.mem_filter.mp hr
  refine ⟨hf.1, ?_, rfl⟩
  have := hf.2
  simp only [Bool.not_eq_eq_eq_not, Bool.not_true, decide_eq_false_iff_not] at this
  exact this

theorem mem_ccScored {query_recipe : Recipe} {query_recipe_id : Str}
    {recipes : List Recipe} {p : Str × ℚ}
    (hp : p ∈ ccScored query_recipe query_recipe_id recipes) :
    ¬p.1 = query_recipe_id ∧
      ∃ r ∈ recipes, p.1 = r.id ∧
        p.2 = jaccard_similarity (get_ingredients query_recipe) (get_ingredients r) := by
  obtain ⟨r, hr, rfl⟩ := List.mem_map.mp hp
  have hf := List.mem_filter.mp hr
  have hne : ¬r.id = query_recipe_id := by
    have := hf.2
    simp only [Bool.not_eq_eq_eq_not, Bool.not_true, decide_eq_false_iff_not] at this
    exact this
  exact ⟨hne, r, hf.1, rfl, rfl⟩

/-- C5: both retrieval modes return an ordered list of scored pairs of length
at most `top_k`, scores in `[0, 1]`, non-increasing (`scoreGE`-sorted), with
equal-score pairs kept in corpus iteration order (the sort is stable: each
score class of the sorted candidate list equals that of the scored corpus
walk, and the truncated result is a prefix of it), and the query itself never
appears (by name equality in object mode, by id equality in ID-indexed
mode). -/
theorem C5_retrieval_result_contract (query_recipe : Recipe) (corpus : List Recipe)
    (top_k : Nat) (s : ℚ) (query_recipe_id : Str) (recipes : List Recipe)
    (res : List (Str × ℚ))
    (hok : retrieve_similar query_recipe_id recipes top_k = .ok res) :
    (retrieve_similar_recipes query_recipe corpus top_k).length ≤ top_k ∧
    List.Sorted scoreGE (retrieve_similar_recipes query_recipe corpus top_k) ∧
    (∀ p ∈ retrieve_similar_recipes query_recipe corpus top_k, 0 ≤ p.2 ∧ p.2 ≤ 1) ∧
    (∀ p ∈ retrieve_similar_recipes query_recipe corpus top_k,
      ¬p.1.name = query_recipe.name) ∧
    (sortByScoreDesc (groundedScored query_recipe corpus)).filter
        (fun p => decide (p.2 = s))
      = (groundedScored query_recipe corpus).filter (fun p => decide (p.2 = s)) ∧
    ((retrieve_similar_recipes query_recipe corpus top_k).filter
        (fun p => decide (p.2 = s)))
      <+: ((groundedScored query_recipe corpus).filter (fun p => decide (p.2 = s))) ∧
    res.length ≤ top_k ∧
    List.Sorted scoreGE res ∧
    (∀ p ∈ res, 0 ≤ p.2 ∧ p.2 ≤ 1) ∧
    (∀ p ∈ res, ¬p.1 = query_recipe_id) ∧
    (∃ query_found, recipes.find? (fun r => decide (r.id = query_recipe_id))
        = some query_found ∧
      res = (sortByScoreDesc (ccScored query_found query_recipe_id recipes)).take top_k ∧
      res.filter (fun p => decide (p.2 = s))
        <+: ((ccScored query_found query_recipe_id recipes).filter
              (fun p => decide (p.2 = s)))) := by
  obtain ⟨query_found, hfind, hres⟩ :
      ∃ q, recipes.find? (fun r => decide (r.id = query_recipe_id)) = some q ∧
        res = (sortByScoreDesc (ccScored q query_recipe_id recipes)).take top_k := by
    rw [retrieve_similar] at hok
    cases hf : recipes.find? (fun r => decide (r.id = query_recipe_id)) with
    | none => rw [hf] at hok; cases hok
    | some q =>
      rw [hf] at hok
      refine ⟨q, rfl, ?_⟩
      cases hok
      rfl
  subst hres
  refine ⟨List.length_take_le _ _,
    List.Pairwise.sublist (List.take_sublist _ _) (sortByScoreDesc_sorted _),
    ?_, ?_, sortByScoreDesc_stable _ s, ?_,
    List.length_take_le _ _,
    List.Pairwise.sublist (List.take_sublist _ _) (sortByScoreDesc_sorted _),
    ?_, ?_, query_found, hfind, rfl, ?_⟩
  · intro p hp
    have hp2 : p ∈ groundedScored query_recipe corpus :=
      (sortByScoreDesc_perm _).subset (List.mem_of_mem_take hp)
    obtain ⟨-, -, hps⟩ := mem_groundedScored hp2
    rw [hps]
    exact ⟨combined_similarity_nonneg _ _ _ _, combined_similarity_le_one _ _ _ _⟩
  · intro p hp
    have hp2 : p ∈ groundedScored query_recipe corpus :=
      (sortByScoreDesc_perm _).subset (List.mem_of_mem_take hp)
    exact (mem_groundedScored hp2).2.1
  · have hpre := (List.take_prefix top_k
      (sortByScoreDesc (groundedScored query_recipe corpus))).filter
        (fun p => decide (p.2 = s))
    rw [sortByScoreDesc_stable] at hpre
    exact hpre
  · intro p hp
    have hp2 : p ∈ ccScored query_found query_recipe_id recipes :=
      (sortByScoreDesc_perm _).subset (List.mem_of_mem_take hp)
    obtain ⟨-, r, -, -, hps⟩ := mem_ccScored hp2
    rw [hps]
    exact ⟨jaccard_nonneg _ _, jaccard_le_one _ _⟩
  · intro p hp
    have hp2 : p ∈ ccScored query_found query_recipe_id recipes :=
      (sortByScoreDesc_perm _).subset (List.mem_of_mem_take hp)
    exact (mem_ccScored hp2).1
  · have hpre := (List.take_prefix top_k
      (sortByScoreDesc (ccScored query_found query_recipe_id recipes))).filter
        (fun p => decide (p.2 = s))
    rw [sortByScoreDesc_stable] at hpre
    exact hpre

theorem except_eq_ok_of_toOption {ε α : Type _} (e : Except ε α) (a : α)
    (h : e.toOption = some a) : e = .ok a := by
  cases e with
  | error _ => simp [Except.toOption] at h
  | ok b => simp [Except.toOption] at h; rw [h]

/-- Witness for C5: a two-recipe ID-indexed corpus; querying "r1" with
`top_k = 1` returns the single non-self candidate, which indeed does not
carry the query id. -/
theorem C5_retrieval_result_contract_witness :
    retrieve_similar (str ("r1"))
        [({ id := str ("r1") } : Recipe), ({ id := str ("r2") } : Recipe)] 1
      = .ok [(str ("r2"), 0)] ∧
    (∀ p ∈ [(str ("r2"), (0 : ℚ))], ¬p.1 = str ("r1")) := by
  have hok : retrieve_similar (str ("r1"))
      [({ id := str ("r1") } : Recipe), ({ id := str ("r2") } : Recipe)] 1
      = .ok [(str ("r2"), 0)] :=
    except_eq_ok_of_toOption _ _ (by decide)
  exact ⟨hok, (C5_retrieval_result_contract { } [] 1 0 (str ("r1"))
    [({ id := str ("r1") } : Recipe), ({ id := str ("r2") } : Recipe)]
    [(str ("r2"), 0)] hok).2.2.2.2.2.2.2.2.2.1⟩

theorem grounded_retrieve_length (q : Recipe) (c : List Recipe) (k : Nat) :
    (retrieve_similar_recipes q c k).length
      = min k ((c.filter (fun r => !decide (r.name = q.name))).length) := by
  rw [retrieve_similar_recipes, List.length_take]
  congr 1
  rw [(sortByScoreDesc_perm _).length_eq, groundedScored, List.length_map]

theorem cc_retrieve_length (query_recipe_id : Str) (recipes : List Recipe) (k : Nat)
    (res : List (Str × ℚ)) (hok : retrieve_similar query_recipe_id recipes k = .ok res) :
    res.length = min k ((recipes.filter (fun r => !decide (r.id = query_recipe_id))).length) := by
  rw [retrieve_similar] at hok
  cases hf : recipes.find? (fun r => decide (r.id = query_recipe_id)) with
  | none => rw [hf] at hok; cases hok
  | some query_found =>
    rw [hf] at hok
    cases hok
    rw [List.length_take]
    congr 1
    rw [(sortByScoreDesc_perm _).length_eq, ccScored, List.length_map]

/-- C6, counterexample: the claim's "result length = corpus size − 1" assumes
the query occurs (by its identity) exactly once in the corpus.  For a query
recipe named "A" and a one-recipe corpus named "B", `top_k = 5 ≥ 1 − 1`, yet
the result has length 1, not `corpus size − 1 = 0`: nothing is excluded. -/
theorem C6_counterexample_query_absent :
    ([({ name := some (str ("B")) } : Recipe)]).length - 1 ≤ 5 ∧
    (retrieve_similar_recipes ({ name := some (str ("A")) } : Recipe)
        [({ name := some (str ("B")) } : Recipe)] 5).length
      ≠ ([({ name := some (str ("B")) } : Recipe)]).length - 1 := by
  refine ⟨by decide, ?_⟩
  rw [grounded_retrieve_length]
  decide

/-- C6, amended: with `top_k ≥` the number of non-self candidates, retrieval
returns exactly all non-self candidates (in general, result length is
`min top_k (number of non-self candidates)` — never an error); when the query
identity (name in object mode, id in ID-indexed mode) matches exactly one
corpus member, that number is `corpus size − 1`. -/
theorem C6_topk_saturation (query_recipe : Recipe) (corpus : List Recipe)
    (top_k : Nat) (query_recipe_id : Str) (recipes : List Recipe)
    (res : List (Str × ℚ))
    (hok : retrieve_similar query_recipe_id recipes top_k = .ok res) :
    (retrieve_similar_recipes query_recipe corpus top_k).length
      = min top_k ((corpus.filter (fun r => !decide (r.name = query_recipe.name))).length) ∧
    (((corpus.filter (fun r => decide (r.name = query_recipe.name))).length = 1 ∧
        corpus.length - 1 ≤ top_k) →
      (retrieve_similar_recipes query_recipe corpus top_k).length = corpus.length - 1) ∧
    res.length
      = min top_k ((recipes.filter (fun r => !decide (r.id = query_recipe_id))).length) ∧
    (((recipes.filter (fun r => decide (r.id = query_recipe_id))).length = 1 ∧
        recipes.length - 1 ≤ top_k) →
      res.length = recipes.length - 1) := by
  refine ⟨grounded_retrieve_length query_recipe corpus top_k, ?_,
    cc_retrieve_length query_recipe_id recipes top_k res hok, ?_⟩
  · rintro ⟨hone, hk⟩
    rw [grounded_retrieve_length]
    have htot := List.length_eq_length_filter_add
      (l := corpus) (fun r => decide (r.name = query_recipe.name))
    rw [hone] at htot
    have hval : ((corpus.filter (fun r => !decide (r.name = query_recipe.name))).length)
        = corpus.length - 1 := by omega
    rw [hval]
    omega
  · rintro ⟨hone, hk⟩
    rw [cc_retrieve_length query_recipe_id recipes top_k res hok]
    have htot := List.length_eq_length_filter_add
      (l := recipes) (fun r => decide (r.id = query_recipe_id))
    rw [hone] at htot
    have hval : ((recipes.filter (fun r => !decide (r.id = query_recipe_id))).length)
        = recipes.length - 1 := by omega
    rw [hval]
    omega

/-- Witness for C6 (amended): a two-recipe corpus containing the query name
once; `top_k = 5` saturates to `corpus size − 1 = 1` result. -/
theorem C6_topk_saturation_witness :
    (retrieve_similar_recipes ({ name := some (str ("A")) } : Recipe)
        [({ name := some (str ("A")) } : Recipe),
         ({ name := some (str ("B")) } : Recipe)] 5).length = 1 := by
  have hok : retrieve_similar (str ("r1"))
      [({ id := str ("r1") } : Recipe), ({ id := str ("r2") } : Recipe)] 5
      = .ok [(str ("r2"), 0)] := except_eq_ok_of_toOption _ _ (by decide)
  exact (C6_topk_saturation ({ name := some (str ("A")) } : Recipe)
    [({ name := some (str ("A")) } : Recipe), ({ name := some (str ("B")) } : Recipe)]
    5 (str ("r1")) [({ id := str ("r1") } : Recipe), ({ id := str ("r2") } : Recipe)]
    [(str ("r2"), 0)] hok).2.1 ⟨by decide, by decide⟩

theorem add_ingredient_inv (st : ExtractState) (name : Str)
    (h : (st.ingredients.map (fun n => trimStr (lowerStr n))).Nodup ∧
      (∀ k ∈ st.ingredients.map (fun n => trimStr (lowerStr n)), k ∈ st.seen) ∧
      (∀ n ∈ st.ingredients,
        trimStr (lowerStr n) ≠ [] ∧
        2 ≤ (trimStr (lowerStr n)).length ∧
        trimStr (lowerStr n) ∉ GARBAGE_WORDS ∧
        (pyWords (trimStr (lowerStr n))).length ≤ 4)) :
    ((add_ingredient st name).ingredients.map (fun n => trimStr (lowerStr n))).Nodup ∧
    (∀ k ∈ (add_ingredient st name).ingredients.map (fun n => trimStr (lowerStr n)),
      k ∈ (add_ingredient st name).seen) ∧
    (∀ n ∈ (add_ingredient st name).ingredients,
      trimStr (lowerStr n) ≠ [] ∧
      2 ≤ (trimStr (lowerStr n)).length ∧
      trimStr (lowerStr n) ∉ GARBAGE_WORDS ∧
      (pyWords (trimStr (lowerStr n))).length ≤ 4) := by
  obtain ⟨h1, h2, h3⟩ := h
  rw [add_ingredient]
  split
  · exact ⟨h1, h2, h3⟩
  split
  · exact ⟨h1, h2, h3⟩
  split
  · exact ⟨h1, h2, h3⟩
  split
  · exact ⟨h1, h2, h3⟩
  split
  · exact ⟨h1, h2, h3⟩
  rename_i hne hgar hlen hwords hseen
  refine ⟨?_, ?_, ?_⟩
  · simp only [List.map_append, List.map_cons, List.map_nil]
    rw [List.nodup_append]
    refine ⟨h1, List.nodup_singleton _, ?_⟩
    intro k hk hk2
    simp only [List.mem_singleton] at hk2
    subst hk2
    exact hseen (h2 _ hk)
  · intro k hk
    simp only [List.map_append, List.map_cons, List.map_nil, List.mem_append,
      List.mem_singleton] at hk
    cases hk with
    | inl hk => exact List.mem_cons_of_mem _ (h2 _ hk)
    | inr hk => subst hk; exact List.mem_cons_self _ _
  · intro n hn
    simp only [List.mem_append, List.mem_singleton] at hn
    cases hn with
    | inl hn => exact h3 n hn
    | inr hn =>
      subst hn
      refine ⟨?_, by omega, hgar, by omega⟩
      intro hnil
      rw [← List.isEmpty_iff] at hnil
      exact hne hnil

theorem foldl_add_ingredient_inv (names : List Str) :
    ∀ st : ExtractState,
      ((st.ingredients.map (fun n => trimStr (lowerStr n))).Nodup ∧
        (∀ k ∈ st.ingredients.map (fun n => trimStr (lowerStr n)), k ∈ st.seen) ∧
        (∀ n ∈ st.ingredients,
          trimStr (lowerStr n) ≠ [] ∧
          2 ≤ (trimStr (lowerStr n)).length ∧
          trimStr (lowerStr n) ∉ GARBAGE_WORDS ∧
          (pyWords (trimStr (lowerStr n))).length ≤ 4)) →
      (((names.foldl add_ingredient st).ingredients.map
          (fun n => trimStr (lowerStr n))).Nodup ∧
        (∀ k ∈ (names.foldl add_ingredient st).ingredients.map
            (fun n => trimStr (lowerStr n)), k ∈ (names.foldl add_ingredient st).seen) ∧
        (∀ n ∈ (names.foldl add_ingredient st).ingredients,
          trimStr (lowerStr n) ≠ [] ∧
          2 ≤ (trimStr (lowerStr n)).length ∧
          trimStr (lowerStr n) ∉ GARBAGE_WORDS ∧
          (pyWords (trimStr (lowerStr n))).length ≤ 4)) := by
  induction names with
  | nil => intro st h; exact h
  | cons name rest ih =>
    intro st h
    rw [List.foldl_cons]
    exact ih _ (add_ingredient_inv st name h)

theorem parse_line_inv (parse : Str → List Str) (st : ExtractState) (line : Str)
    (h : (st.ingredients.map (fun n => trimStr (lowerStr n))).Nodup ∧
      (∀ k ∈ st.ingredients.map (fun n => trimStr (lowerStr n)), k ∈ st.seen) ∧
      (∀ n ∈ st.ingredients,
        trimStr (lowerStr n) ≠ [] ∧
        2 ≤ (trimStr (lowerStr n)).length ∧
        trimStr (lowerStr n) ∉ GARBAGE_WORDS ∧
        (pyWords (trimStr (lowerStr n))).length ≤ 4)) :
    (((parse_line parse st line).ingredients.map
        (fun n => trimStr (lowerStr n))).Nodup ∧
      (∀ k ∈ (parse_line parse st line).ingredients.map
          (fun n => trimStr (lowerStr n)), k ∈ (parse_line parse st line).seen) ∧
      (∀ n ∈ (parse_line parse st line).ingredients,
        trimStr (lowerStr n) ≠ [] ∧
        2 ≤ (trimStr (lowerStr n)).length ∧
        trimStr (lowerStr n) ∉ GARBAGE_WORDS ∧
        (pyWords (trimStr (lowerStr n))).length ≤ 4)) := by
  rw [parse_line]
  split
  · exact h
  dsimp only
  split
  · exact h
  split
  · exact h
  split
  · exact h
  exact foldl_add_ingredient_inv _ st h

theorem foldl_parse_line_inv (parse : Str → List Str) (lines : List Str) :
    ∀ st : ExtractState,
      ((st.ingredients.map (fun n => trimStr (lowerStr n))).Nodup ∧
        (∀ k ∈ st.ingredients.map (fun n => trimStr (lowerStr n)), k ∈ st.seen) ∧
        (∀ n ∈ st.ingredients,
          trimStr (lowerStr n) ≠ [] ∧
          2 ≤ (trimStr (lowerStr n)).length ∧
          trimStr (lowerStr n) ∉ GARBAGE_WORDS ∧
          (pyWords (trimStr (lowerStr n))).length ≤ 4)) →
      (((lines.foldl (parse_line parse) st).ingredients.map
          (fun n => trimStr (lowerStr n))).Nodup ∧
        (∀ k ∈ (lines.foldl (parse_line parse) st).ingredients.map
            (fun n => trimStr (lowerStr n)),
          k ∈ (lines.foldl (parse_line parse) st).seen) ∧
        (∀ n ∈ (lines.foldl (parse_line parse) st).ingredients,
          trimStr (lowerStr n) ≠ [] ∧
          2 ≤ (trimStr (lowerStr n)).length ∧
          trimStr (lowerStr n) ∉ GARBAGE_WORDS ∧
          (pyWords (trimStr (lowerStr n))).length ≤ 4)) := by
  induction lines with
  | nil => intro st h; exact h
  | cons line rest ih =>
    intro st h
    rw [List.foldl_cons]
    exact ih _ (parse_line_inv parse st line h)

/-- C7: for every input text and every behaviour of the external
ingredient-phrase parser, the extracted list is deduplicated
case-insensitively — the lowercase+strip forms of its elements are pairwise
distinct — and each element's lowercase+strip form is non-empty, at least 2
characters long, not a garbage word, and at most 4 whitespace tokens. -/
theorem C7_extraction_invariants (parse : Str → List Str) (text : Str) :
    ((extract_ingredients_from_text parse text).map
        (fun n => trimStr (lowerStr n))).Nodup ∧
    (∀ n ∈ extract_ingredients_from_text parse text,
      trimStr (lowerStr n) ≠ [] ∧
      2 ≤ (trimStr (lowerStr n)).length ∧
      trimStr (lowerStr n) ∉ GARBAGE_WORDS ∧
      (pyWords (trimStr (lowerStr n))).length ≤ 4) := by
  rw [extract_ingredients_from_text]
  have h := foldl_parse_line_inv parse
    (match findSection (removePairs '_' (removePairs '*' text)) with
      | some body => (takeSection body).splitOn '\n'
      | none => (removePairs '_' (removePairs '*' text)).splitOn '\n')
    { seen := [], ingredients := [] }
    (by refine ⟨List.nodup_nil, ?_, ?_⟩ <;> intro x hx <;> cases hx)
  exact ⟨h.1, h.2.2⟩

theorem extract_allowed_foldl_congr (pairs : List (Recipe × ℚ))
    (h : ∀ p ∈ pairs, get_ingredients p.1 =
      ((p.1.ingredients.getD []).map (fun ing => trimStr (lowerStr ing))).toFinset) :
    ∀ acc : Finset Str,
      pairs.foldl (fun allowed p => allowed ∪ get_ingredients p.1) acc
        = (pairs.map Prod.fst).foldl
            (fun allowed recipe => allowed ∪
              ((recipe.ingredients.getD []).map
                (fun ing => trimStr (lowerStr ing))).toFinset) acc := by
  induction pairs with
  | nil => intro acc; rfl
  | cons p rest ih =>
    intro acc
    rw [List.map_cons, List.foldl_cons, List.foldl_cons, h p (by simp)]
    exact ih (fun q hq => h q (by simp [hq])) _

theorem get_ingredients_flat_trimmed (r : Recipe) (l : List Str)
    (hg : r.graph = none) (hi : r.ingredients = some l)
    (ht : ∀ i ∈ l, trimStr i = i) :
    get_ingredients r
      = ((r.ingredients.getD []).map (fun ing => trimStr (lowerStr ing))).toFinset := by
  rw [get_ingredients, hg, hi]
  simp only [Option.getD_some]
  congr 1
  apply List.map_congr_left
  intro i hil
  rw [trimStr_lowerStr, ht i hil]

/-- C10: the retrieval-side and generation-side `extract_allowed_ingredients`
agree on flat-shape recipes (an `"ingredients"` list, no `"graph"` field)
whose ingredient strings carry no leading/trailing whitespace, for any
attached scores; outside that precondition they can disagree — a
whitespace-padded ingredient makes the sets differ, and a graph-shaped
recipe is mapped to the empty set by the generation-side function while the
retrieval side returns its lowercased graph ingredients. -/
theorem C10_allowed_ingredients_refinement (pairs : List (Recipe × ℚ))
    (hflat : ∀ p ∈ pairs, p.1.graph = none ∧
      ∃ l, p.1.ingredients = some l ∧ ∀ i ∈ l, trimStr i = i) :
    retrievalExtractAllowedIngredients pairs
      = generationExtractAllowedIngredients (pairs.map Prod.fst) ∧
    retrievalExtractAllowedIngredients
        [(({ ingredients := some [str (" tofu")] } : Recipe), 0)]
      ≠ generationExtractAllowedIngredients
        [({ ingredients := some [str (" tofu")] } : Recipe)] ∧
    generationExtractAllowedIngredients [({ graph := some [str ("Tofu")] } : Recipe)]
      = (∅ : Finset Str) ∧
    retrievalExtractAllowedIngredients
        [(({ graph := some [str ("Tofu")] } : Recipe), 0)]
      = ({str ("tofu")} : Finset Str) := by
  refine ⟨?_, by decide, by decide, by decide⟩
  rw [retrievalExtractAllowedIngredients, generationExtractAllowedIngredients]
  apply extract_allowed_foldl_congr
  intro p hp
  obtain ⟨hg, l, hi, ht⟩ := hflat p hp
  exact get_ingredients_flat_trimmed p.1 l hg hi ht

/-- Witness for C10: a flat recipe with trimmed ingredients, with any score,
gives the same allowed set through both functions. -/
theorem C10_allowed_ingredients_refinement_witness :
    retrievalExtractAllowedIngredients
        [(({ ingredients := some [str ("Tofu"), str ("rice")] } : Recipe), 0)]
      = generationExtractAllowedIngredients
        [({ ingredients := some [str ("Tofu"), str ("rice")] } : Recipe)] :=
  (C10_allowed_ingredients_refinement
    [(({ ingredients := some [str ("Tofu"), str ("rice")] } : Recipe), 0)]
    (by decide)).1

theorem lowerStr_single_space : lowerStr [' '] = [' '] := by decide

theorem normalize_ingredient_congr (lem : Str → Str) (u : Bool) {x y : Str}
    (h : trimStr (lowerStr y) = trimStr (lowerStr x)) :
    normalize_ingredient lem u y = normalize_ingredient lem u x := by
  simp only [normalize_ingredient, h]

theorem pyWords_mem_spec {s : Str} {w : Str} (hw : w ∈ pyWords s) :
    w ≠ [] := by
  rw [pyWords] at hw
  have h2 := (List.mem_filter.mp hw).2
  simp only [Bool.not_eq_eq_eq_not, Bool.not_true, List.isEmpty_eq_false] at h2
  exact h2

theorem normalize_ingredient_false (lem : Str → Str) (x : Str) :
    normalize_ingredient lem false x = trimStr (lowerStr x) := rfl

theorem normalize_ingredient_true (lem : Str → Str) (x : Str) :
    normalize_ingredient lem true x
      = List.intercalate [' '] ((pyWords (trimStr (lowerStr x))).map lem) := rfl

/-- C8: `normalize_ingredient` is idempotent (for the lemmatizing variant,
under the contract that the external lemmatizer emits non-empty,
whitespace-free, lowercase base forms and is idempotent on its own outputs on
the tokens involved), and its output never depends on letter case or on
leading/trailing whitespace of the input. -/
theorem C8_normalize_idempotent_case_ws_invariant (lem : Str → Str) (u : Bool)
    (x y a b : Str)
    (h1 : ∀ w ∈ pyWords (trimStr (lowerStr x)), lem w ≠ [])
    (h2 : ∀ w ∈ pyWords (trimStr (lowerStr x)), ∀ c ∈ lem w, c.isWhitespace = false)
    (h3 : ∀ w ∈ pyWords (trimStr (lowerStr x)), lowerStr (lem w) = lem w)
    (h4 : ∀ w ∈ pyWords (trimStr (lowerStr x)), lem (lem w) = lem w) :
    normalize_ingredient lem u (normalize_ingredient lem u x)
      = normalize_ingredient lem u x ∧
    (lowerStr y = lowerStr x →
      normalize_ingredient lem u y = normalize_ingredient lem u x) ∧
    ((∀ c ∈ a, c.isWhitespace = true) → (∀ c ∈ b, c.isWhitespace = true) →
      normalize_ingredient lem u (a ++ x ++ b) = normalize_ingredient lem u x) := by
  refine ⟨?_, ?_, ?_⟩
  · cases u with
    | false =>
      rw [normalize_ingredient_false, normalize_ingredient_false]
      rw [trimStr_lowerStr, trimStr_trimStr, trimStr_lowerStr, lowerStr_lowerStr,
        ← trimStr_lowerStr]
    | true =>
      rw [normalize_ingredient_true, normalize_ingredient_true]
      have hts : ∀ w ∈ (pyWords (trimStr (lowerStr x))).map lem,
          w ≠ [] ∧ ∀ c ∈ w, c.isWhitespace = false := by
        intro w hw
        obtain ⟨w0, hw0, rfl⟩ := List.mem_map.mp hw
        exact ⟨h1 w0 hw0, h2 w0 hw0⟩
      have hlow : lowerStr (List.intercalate [' ']
          ((pyWords (trimStr (lowerStr x))).map lem))
          = List.intercalate [' '] ((pyWords (trimStr (lowerStr x))).map lem) := by
        rw [lowerStr, map_intercalate]
        have : ((pyWords (trimStr (lowerStr x))).map lem).map (List.map lowerChar)
            = (pyWords (trimStr (lowerStr x))).map lem := by
          rw [List.map_map]
          apply List.map_congr_left
          intro w0 hw0
          exact h3 w0 hw0
        rw [this]
        have hsep : ([' '] : Str).map lowerChar = [' '] := lowerStr_single_space
        rw [hsep]
      rw [hlow, trimStr_intercalate _ hts, pyWords_intercalate _ hts]
      congr 1
      rw [List.map_map]
      apply List.map_congr_left
      intro w0 hw0
      exact h4 w0 hw0
  · intro hcase
    exact normalize_ingredient_congr lem u (by rw [hcase])
  · intro ha hb
    apply normalize_ingredient_congr
    rw [lowerStr_append, lowerStr_append, trimStr_pad]
    · intro c hc
      obtain ⟨c0, hc0, rfl⟩ := List.mem_map.mp hc
      rw [isWhitespace_lowerChar]
      exact ha c0 hc0
    · intro c hc
      obtain ⟨c0, hc0, rfl⟩ := List.mem_map.mp hc
      rw [isWhitespace_lowerChar]
      exact hb c0 hc0

/-- Witness for C8 at a concrete lemmatizer (mapping "tomatoes" to "tomato")
and input "  Diced  Tomatoes ": the lemmatizer contract holds on the tokens
involved, normalization is idempotent there, and a case-changed variant
normalizes identically. -/
theorem C8_normalize_idempotent_witness :
    (∀ w ∈ pyWords (trimStr (lowerStr (str ("  Diced  Tomatoes ")))),
      (if w = str ("tomatoes") then str ("tomato") else w) ≠ []) ∧
    normalize_ingredient (fun w => if w = str ("tomatoes") then str ("tomato") else w)
        true (str ("  Diced  Tomatoes ")) = str ("diced tomato") ∧
    normalize_ingredient (fun w => if w = str ("tomatoes") then str ("tomato") else w)
        true (normalize_ingredient
          (fun w => if w = str ("tomatoes") then str ("tomato") else w)
          true (str ("  Diced  Tomatoes ")))
      = normalize_ingredient (fun w => if w = str ("tomatoes") then str ("tomato") else w)
          true (str ("  Diced  Tomatoes ")) ∧
    normalize_ingredient (fun w => if w = str ("tomatoes") then str ("tomato") else w)
        true (str ("  DICED  TOMATOES "))
      = normalize_ingredient (fun w => if w = str ("tomatoes") then str ("tomato") else w)
          true (str ("  Diced  Tomatoes ")) := by
  refine ⟨by decide, by decide, ?_, ?_⟩
  · exact (C8_normalize_idempotent_case_ws_invariant
      (fun w => if w = str ("tomatoes") then str ("tomato") else w) true
      (str ("  Diced  Tomatoes ")) [] [] []
      (by decide) (by decide) (by decide) (by decide)).1
  · exact (C8_normalize_idempotent_case_ws_invariant
      (fun w => if w = str ("tomatoes") then str ("tomato") else w) true
      (str ("  Diced  Tomatoes ")) (str ("  DICED  TOMATOES ")) [] []
      (by decide) (by decide) (by decide) (by decide)).2.1 (by decide)
